import Mathlib

/- Shallow embedding of the HTML translation pipeline of this repository:
   `src/translate_html.py` (Italian -> Thai) and `src/translate_html_ru.py`
   (auto -> Russian).  Documents are modelled as lists of characters.  The
   regular-expression scans of the source are implemented as explicit
   left-to-right scanners mirroring Python `re` semantics (leftmost,
   non-overlapping matches; lazy and greedy pieces are noted at each
   definition).  The external translation backend is a parameter: a batch
   function and a single-item function, each returning `Option` (`none`
   models a raised backend exception). -/

namespace HtmlPipe

abbrev Chars := List Char

/-- Coerce a string literal to the character-list representation. -/
def ofS (s : String) : Chars := s.data

/-- ASCII lowercasing, as `re.IGNORECASE` compares ASCII letters. -/
def asciiLower (c : Char) : Char :=
  if 'A' ≤ c ∧ c ≤ 'Z' then Char.ofNat (c.toNat + 32) else c

/-- ASCII uppercasing (Python `str.upper` on the ASCII tag names used here). -/
def asciiUpper (c : Char) : Char :=
  if 'a' ≤ c ∧ c ≤ 'z' then Char.ofNat (c.toNat - 32) else c

/-- Python whitespace class, for `\s`, `str.strip`, `str.lstrip`, `str.rstrip`. -/
def isSpaceCh (c : Char) : Bool :=
  decide (c = ' ' ∨ c = '\t' ∨ c = '\n' ∨ c = '\x0b' ∨ c = '\x0c' ∨ c = '\r')

/-- Decimal digit. -/
def isDigitCh (c : Char) : Bool := decide ('0' ≤ c ∧ c ≤ '9')

/-- ASCII uppercase letter, for the `[A-Z]+` part of the token pattern. -/
def isUpperCh (c : Char) : Bool := decide ('A' ≤ c ∧ c ≤ 'Z')

/-- ASCII letter, for `[A-Za-z]`. -/
def isAsciiAlpha (c : Char) : Bool :=
  decide (('A' ≤ c ∧ c ≤ 'Z') ∨ ('a' ≤ c ∧ c ≤ 'z'))

/-- Character class `[A-Za-zÀ-ÖØ-öø-ÿ]` used by both scripts to decide that a
    segment contains Latin-script letters. -/
def isLatinCh (c : Char) : Bool :=
  isAsciiAlpha c ||
  decide ((0xC0 ≤ c.toNat ∧ c.toNat ≤ 0xD6) ∨ (0xD8 ≤ c.toNat ∧ c.toNat ≤ 0xF6) ∨
          (0xF8 ≤ c.toNat ∧ c.toNat ≤ 0xFF))

/-- Word character for the `\b` boundary: ASCII letters, digits, underscore,
    and the Latin-1 letters that Python's unicode `\w` also matches. -/
def isWordCh (c : Char) : Bool :=
  isAsciiAlpha c || isDigitCh c || decide (c = '_') ||
  decide (0xC0 ≤ c.toNat ∧ c.toNat ≤ 0xFF ∧ c.toNat ≠ 0xD7 ∧ c.toNat ≠ 0xF7)

/-- Cyrillic block `[Ѐ-ӿ]` (the `CYRILLIC_RE` of the ru script). -/
def isCyrCh (c : Char) : Bool := decide (0x400 ≤ c.toNat ∧ c.toNat ≤ 0x4FF)

/-- Exact prefix test. -/
def isPrefixL : Chars → Chars → Bool
  | [], _ => true
  | _ :: _, [] => false
  | p :: ps, c :: cs => p == c && isPrefixL ps cs

/-- Case-insensitive (ASCII) prefix test. -/
def ciPrefixL : Chars → Chars → Bool
  | [], _ => true
  | _ :: _, [] => false
  | p :: ps, c :: cs => (asciiLower p == asciiLower c) && ciPrefixL ps cs

/-- Leftmost case-insensitive occurrence of `pat`: returns the text before the
    match, the matched characters (original case preserved), and the rest. -/
def splitOnceCI (pat : Chars) : Chars → Option (Chars × Chars × Chars)
  | [] => if pat.isEmpty then some ([], [], []) else none
  | c :: cs =>
    if ciPrefixL pat (c :: cs) then
      some ([], (c :: cs).take pat.length, (c :: cs).drop pat.length)
    else
      match splitOnceCI pat cs with
      | some (pre, m, post) => some (c :: pre, m, post)
      | none => none

/-- Exact substring test (Python `in` on strings). -/
def containsL (pat : Chars) : Chars → Bool
  | [] => pat.isEmpty
  | c :: cs => isPrefixL pat (c :: cs) || containsL pat cs

/-- Python `str.replace` on a nonempty pattern: scan left to right, replace
    each non-overlapping occurrence, never rescanning replacement text.  The
    fuel is one unit per consumed character, so `s.length` always suffices. -/
def replaceAllAux (pat repl : Chars) : Nat → Chars → Chars
  | 0, s => s
  | _ + 1, [] => []
  | fuel + 1, c :: cs =>
    if isPrefixL pat (c :: cs) then
      repl ++ replaceAllAux pat repl fuel ((c :: cs).drop pat.length)
    else
      c :: replaceAllAux pat repl fuel cs

/-- Python `str.replace` (all occurrences). -/
def replaceAll (pat repl s : Chars) : Chars :=
  if pat.isEmpty then s else replaceAllAux pat repl s.length s

/-- Python `str.strip` (both ends). -/
def stripL (s : Chars) : Chars :=
  ((s.dropWhile isSpaceCh).reverse.dropWhile isSpaceCh).reverse

/-- Leading whitespace run, the `re.match(r"^\s*", s)` of the source. -/
def leadWS (s : Chars) : Chars := s.takeWhile isSpaceCh

/-- Trailing whitespace run, the `re.search(r"\s*$", s)` of the source. -/
def trailWS (s : Chars) : Chars := (s.reverse.takeWhile isSpaceCh).reverse

/-- The slice `s[len(lead) : len(s) - len(trail)]` of the source's repl
    helpers (empty when the whitespace runs overlap). -/
def coreOf (s : Chars) : Chars :=
  (s.take (s.length - (trailWS s).length)).drop (leadWS s).length

/-- Decimal digit character. -/
def digitChar (n : Nat) : Char := Char.ofNat (48 + n % 10)

/-- Decimal rendering of a natural number (Python `str(n)` via f-string). -/
def natToCharsAux : Nat → Nat → Chars
  | 0, _ => []
  | fuel + 1, n =>
    if n < 10 then [digitChar n] else natToCharsAux fuel (n / 10) ++ [digitChar n]

/-- Decimal rendering of a natural number. -/
def natToChars (n : Nat) : Chars := natToCharsAux (n + 1) n

/-- Order-preserving de-duplication: the `seen` set plus `uniq` list loop of
    `batch_translate` in translate_html.py. -/
def dedupAux {α : Type} [DecidableEq α] : List α → List α → List α
  | _, [] => []
  | seen, x :: xs =>
    if x ∈ seen then dedupAux seen xs else x :: dedupAux (x :: seen) xs

/-- Order-preserving de-duplication. -/
def dedup {α : Type} [DecidableEq α] (l : List α) : List α := dedupAux [] l

/-- Fixed-size chunking, the `range(0, len, CHUNK)` slice loops of both
    scripts.  Fuel one per chunk; `l.length` always suffices and the
    fuel-exhausted fallback keeps the concatenation equal to the input. -/
def chunksOfAux {α : Type} (n : Nat) : Nat → List α → List (List α)
  | _, [] => []
  | 0, l => [l]
  | fuel + 1, x :: xs => (x :: xs).take n :: chunksOfAux n fuel ((x :: xs).drop n)

/-- Fixed-size chunking. -/
def chunksOf {α : Type} (n : Nat) (l : List α) : List (List α) :=
  chunksOfAux n l.length l

/-- Dictionary lookup (`dict.get`) on an association list. -/
def mlookup {α β : Type} [DecidableEq α] : List (α × β) → α → Option β
  | [], _ => none
  | (a, b) :: rest, k => if a = k then some b else mlookup rest k

/-- Dictionary assignment (`dict[k] = v`): overwrite in place or append. -/
def setKV {α β : Type} [DecidableEq α] : List (α × β) → α → β → List (α × β)
  | [], k, v => [(k, v)]
  | (a, b) :: rest, k, v =>
    if a = k then (k, v) :: rest else (a, b) :: setKV rest k v

/-- Head-is-word-character test, used for `\b` right after a literal. -/
def headIsWord : Chars → Bool
  | [] => false
  | c :: _ => isWordCh c

/-- Predicate for the characters allowed inside a `>text<` text node
    (the class `[^<>]`). -/
def nonAngle (d : Char) : Bool := !(d == '<' || d == '>')

/-- Whether a segment contains a Latin-script letter (`re.search` with the
    Latin class, and `has_latin` of the ru script). -/
def hasLatin (s : Chars) : Bool := s.any isLatinCh

/-- Whether a segment contains a Cyrillic letter (`has_cyrillic`). -/
def hasCyr (s : Chars) : Bool := s.any isCyrCh

end HtmlPipe

/- Embedding of src/translate_html.py (Italian -> Thai pipeline). -/

namespace HtmlPipe.TH

/-- The `VISIBLE_ATTRS` list of translate_html.py. -/
def VISIBLE_ATTRS : List Chars :=
  [ofS "alt", ofS "title", ofS "placeholder", ofS "aria-label"]

/-- Key built by `_store` in `make_placeholders`:
    `__PLACEHOLDER_{kind}_{len(placeholders)}__`. -/
def placeholderKey (kind : Chars) (n : Nat) : Chars :=
  ofS "__PLACEHOLDER_" ++ kind ++ ('_' :: natToChars n) ++ ofS "__"

/-- Leftmost case-insensitive occurrence of `pat` that, when `boundary` is
    set, is followed by a `\b` word boundary (the next character is not a
    word character).  Returns text before, matched text, rest. -/
def findOpenCI (pat : Chars) (boundary : Bool) : Chars → Option (Chars × Chars × Chars)
  | [] => none
  | c :: cs =>
    if ciPrefixL pat (c :: cs) &&
       (!boundary || !headIsWord ((c :: cs).drop pat.length)) then
      some ([], (c :: cs).take pat.length, (c :: cs).drop pat.length)
    else
      match findOpenCI pat boundary cs with
      | some (pre, m, post) => some (c :: pre, m, post)
      | none => none

/-- One protection `re.sub` pass of `make_placeholders`: the pattern is the
    opening literal, a lazy `[\s\S]*?`, and the closing literal (for scripts
    and styles the opening literal carries a `\b` and `re.IGNORECASE`).  Each
    match is replaced by a fresh key and stored; fuel is one unit per match,
    so `s.length + 1` always suffices. -/
def protectPassAux (openPat closePat kind : Chars) (boundary : Bool) :
    Nat → Chars → List (Chars × Chars) → Chars × List (Chars × Chars)
  | 0, s, store => (s, store)
  | fuel + 1, s, store =>
    match findOpenCI openPat boundary s with
    | none => (s, store)
    | some (pre, mo, rest) =>
      match splitOnceCI closePat rest with
      | none => (s, store)
      | some (mid, mc, post) =>
        let content := mo ++ mid ++ mc
        let key := placeholderKey kind store.length
        let next := protectPassAux openPat closePat kind boundary fuel post
          (store ++ [(key, content)])
        (pre ++ key ++ next.1, next.2)

/-- The `make_placeholders` function: protect comments, then scripts, then
    styles, storing each match under a fresh global-counter key. -/
def makePlaceholders (html : Chars) : Chars × List (Chars × Chars) :=
  let r1 := protectPassAux (ofS "<!--") (ofS "-->") (ofS "COMMENT") false
    (html.length + 1) html []
  let r2 := protectPassAux (ofS "<script") (ofS "</script>") (ofS "SCRIPT") true
    (r1.1.length + 1) r1.1 r1.2
  protectPassAux (ofS "<style") (ofS "</style>") (ofS "STYLE") true
    (r2.1.length + 1) r2.1 r2.2

/-- The `restore_placeholders` function: `str.replace` each key by its saved
    content, in dictionary insertion order. -/
def restorePlaceholders (html : Chars) (store : List (Chars × Chars)) : Chars :=
  store.foldl (fun h kv => replaceAll kv.1 kv.2 h) html

/-- Protection followed immediately by restoration, with no translation step
    in between (the `restore(protect(doc))` round trip of the spec). -/
def roundTripProtect (doc : Chars) : Chars :=
  restorePlaceholders (makePlaceholders doc).1 (makePlaceholders doc).2

/-- Fullmatch of the token pattern `__PLACEHOLDER_[A-Z]+_\d+__`. -/
def placeholderFullmatch (s : Chars) : Bool :=
  isPrefixL (ofS "__PLACEHOLDER_") s &&
  (let r := s.drop 14
   let u := r.takeWhile isUpperCh
   !u.isEmpty &&
   (match r.drop u.length with
    | '_' :: r3 =>
      let d := r3.takeWhile isDigitCh
      !d.isEmpty && (r3.drop d.length == ofS "__")
    | _ => false))

/-- All matches of `>([^<>]+)<` in document order (`re.finditer`): from each
    `>`, the maximal run of non-angle characters, which must be nonempty and
    be followed by `<`; on failure the scan advances one character. -/
def textNodesAux : Nat → Chars → List Chars
  | 0, _ => []
  | _ + 1, [] => []
  | fuel + 1, c :: cs =>
    if c = '>' then
      let run := cs.takeWhile nonAngle
      match cs.drop run.length with
      | '<' :: rest2 =>
        if run.isEmpty then textNodesAux fuel cs else run :: textNodesAux fuel rest2
      | _ => textNodesAux fuel cs
    else textNodesAux fuel cs

/-- The `find_text_nodes` function, with its three skip rules (blank after
    strip, placeholder fullmatch on the strip, no Latin letter). -/
def findTextNodes (html : Chars) : List Chars :=
  (textNodesAux html.length html).filter (fun t =>
    !(stripL t).isEmpty && !placeholderFullmatch (stripL t) && hasLatin t)

/-- Attempt, at the head of `s`, the match `attr\s*=\s*("([^"]*)"|'([^']*)')`
    with a case-insensitive attribute name.  Returns the matched text up to
    and including the `=` and following spaces, the quote character, the
    value, and the rest after the closing quote.  The double-quote
    alternative is tried first, exactly as in the source patterns (used both
    by `find_attr_values` and by `replace_attr_values`, whose patterns match
    the same spans). -/
def matchAttrAt (attr : Chars) (s : Chars) : Option (Chars × Char × Chars × Chars) :=
  if ciPrefixL attr s then
    let aTxt := s.take attr.length
    let r1 := s.drop attr.length
    let sp1 := r1.takeWhile isSpaceCh
    match r1.drop sp1.length with
    | '=' :: r2 =>
      let sp2 := r2.takeWhile isSpaceCh
      match r2.drop sp2.length with
      | q :: r3 =>
        if q = '"' ∨ q = Char.ofNat 39 then
          let v := r3.takeWhile (fun d => !(d == q))
          match r3.drop v.length with
          | _ :: r4 => some (aTxt ++ sp1 ++ '=' :: sp2, q, v, r4)
          | [] => none
        else none
      | [] => none
    | _ => none
  else none

/-- All matches of the attribute pattern for one attribute name, in document
    order; on failure the scan advances one character. -/
def attrScanAux (attr : Chars) : Nat → Chars → List (Char × Chars)
  | 0, _ => []
  | _ + 1, [] => []
  | fuel + 1, c :: cs =>
    match matchAttrAt attr (c :: cs) with
    | some (_, q, v, rest) => (q, v) :: attrScanAux attr fuel rest
    | none => attrScanAux attr fuel cs

/-- The `find_attr_values` function: per configured attribute, every
    occurrence whose value is nonempty, is not a placeholder token after
    stripping, and has a Latin letter; recorded as (attr, quote, value). -/
def findAttrValues (html : Chars) : List (Chars × Char × Chars) :=
  (VISIBLE_ATTRS.map (fun attr =>
    ((attrScanAux attr html.length html).filter (fun qv =>
      !qv.2.isEmpty && !placeholderFullmatch (stripL qv.2) && hasLatin qv.2)).map
      (fun qv => (attr, qv.1, qv.2)))).flatten

/-- The ordered de-duplicated list that `batch_translate` hands to the
    backend across its chunked calls. -/
def batchInput (strings : List Chars) : List Chars :=
  (chunksOf 40 (dedup strings)).flatten

/-- The `batch_translate` function.  For each 40-chunk of the de-duplicated
    input, try the backend batch call; on failure (`none`) translate each
    item individually, an item failure defaulting to the original text; then
    `zip` originals with translations into the mapping. -/
def batchTranslate (batchFn : List Chars → Option (List Chars))
    (itemFn : Chars → Option Chars) (strings : List Chars) :
    List (Chars × Chars) :=
  (chunksOf 40 (dedup strings)).foldl
    (fun mp chunk =>
      let translations :=
        match batchFn chunk with
        | some ts => ts
        | none => chunk.map (fun s => (itemFn s).getD s)
      (chunk.zip translations).foldl (fun m p => setKV m p.1 p.2) mp)
    []

/-- The repl closure of `replace_between_tags`: preserve the whitespace runs
    of the matched text, look the full original up in the mapping, fall back
    to the core, and re-wrap with the original whitespace. -/
def rbtRepl (mapping : List (Chars × Chars)) (run : Chars) : Chars :=
  let lead := leadWS run
  let trail := trailWS run
  let core := coreOf run
  if core.isEmpty then '>' :: run ++ ['<']
  else
    let translated :=
      match mlookup mapping run with
      | some t => t
      | none => (mlookup mapping core).getD core
    '>' :: (lead ++ translated ++ trail) ++ ['<']

/-- The `re.sub(r">([^<>]+)<", repl, html)` scan of `replace_between_tags`. -/
def rbtAux (mapping : List (Chars × Chars)) : Nat → Chars → Chars
  | 0, s => s
  | _ + 1, [] => []
  | fuel + 1, c :: cs =>
    if c = '>' then
      let run := cs.takeWhile nonAngle
      match cs.drop run.length with
      | '<' :: rest2 =>
        if run.isEmpty then c :: rbtAux mapping fuel cs
        else rbtRepl mapping run ++ rbtAux mapping fuel rest2
      | _ => c :: rbtAux mapping fuel cs
    else c :: rbtAux mapping fuel cs

/-- The `replace_between_tags` function. -/
def replaceBetweenTags (mapping : List (Chars × Chars)) (html : Chars) : Chars :=
  rbtAux mapping html.length html

/-- One attribute's `re.sub` pass of `replace_attr_values`: same matcher as
    extraction; empty values are left as matched; otherwise the value's
    whitespace runs are preserved around the mapped translation and the
    original quote character is kept. -/
def ravAux (mapping : List (Chars × Chars)) (attr : Chars) : Nat → Chars → Chars
  | 0, s => s
  | _ + 1, [] => []
  | fuel + 1, c :: cs =>
    match matchAttrAt attr (c :: cs) with
    | some (pfx, q, v, rest) =>
      (if v.isEmpty then pfx ++ q :: v ++ [q]
       else
         let lead := leadWS v
         let trail := trailWS v
         let core := coreOf v
         let translated :=
           match mlookup mapping v with
           | some t => t
           | none => (mlookup mapping core).getD core
         pfx ++ q :: (lead ++ translated ++ trail) ++ [q])
      ++ ravAux mapping attr fuel rest
    | none => c :: ravAux mapping attr fuel cs

/-- The `replace_attr_values` function: chain the per-attribute passes in
    `VISIBLE_ATTRS` order. -/
def replaceAttrValues (mapping : List (Chars × Chars)) (html : Chars) : Chars :=
  VISIBLE_ATTRS.foldl (fun h attr => ravAux mapping attr h.length h) html

/-- Match `it(?:-[A-Za-z]+)?` (case-insensitive) followed by the closing
    quote `q`; returns the rest after the quote.  The optional region subtag
    is greedy, and after `[A-Za-z]+` only the full letter run can be followed
    by the quote. -/
def langValMatch (q : Char) (s : Chars) : Option Chars :=
  if ciPrefixL (ofS "it") s then
    match s.drop 2 with
    | c :: r2 =>
      if c = q then some r2
      else if c = '-' then
        let L := r2.takeWhile isAsciiAlpha
        if L.isEmpty then none
        else
          match r2.drop L.length with
          | d :: r3 => if d = q then some r3 else none
          | [] => none
      else none
    | [] => none
  else none

/-- Match `lang\s*=\s*` then the quote `q` then the `it` value at the head of
    `s` (case-insensitive); returns the matched `lang\s*=\s*` text and the
    rest after the closing quote. -/
def tryLangAt (q : Char) (s : Chars) : Option (Chars × Chars) :=
  if ciPrefixL (ofS "lang") s then
    let lTxt := s.take 4
    let r1 := s.drop 4
    let sp1 := r1.takeWhile isSpaceCh
    match r1.drop sp1.length with
    | '=' :: r2 =>
      let sp2 := r2.takeWhile isSpaceCh
      match r2.drop sp2.length with
      | c :: r3 =>
        if c = q then (langValMatch q r3).map (fun rest => (lTxt ++ sp1 ++ '=' :: sp2, rest))
        else none
      | [] => none
    | _ => none
  else none

/-- Whether the character at index `i` of `full` is a word character (the
    left neighbour for the `\b` before `lang`). -/
def isWordChAt (full : Chars) (i : Nat) : Bool :=
  match full.drop i with
  | c :: _ => isWordCh c
  | [] => true

/-- Greedy `[^>]*` backtracking: try consuming `k` characters after `<html`,
    from longest to shortest, requiring a non-word character before `lang`
    (`\b`), then the `tryAt` continuation.  `k = 0` never succeeds since the
    preceding character is then the `l` of `<html`, a word character. -/
def backScanAux (tryAt : Chars → Option (Chars × Chars)) (full : Chars) :
    Nat → Option (Chars × Chars)
  | 0 => none
  | k + 1 =>
    match
      (if isWordChAt full k then none
       else (tryAt (full.drop (k + 1))).map
         (fun pr => (full.take (k + 1) ++ pr.1, pr.2)))
    with
    | some r => some r
    | none => backScanAux tryAt full k

/-- One quote-style `re.sub` pass of `switch_lang_attr`:
    `(<html\b[^>]*\blang\s*=\s*)"it(?:-[A-Za-z]+)?"` replaced by `\1"th"`
    (and the single-quote twin).  Matches anywhere in the document, all
    occurrences, case-insensitive. -/
def slaAux (q : Char) : Nat → Chars → Chars
  | 0, s => s
  | _ + 1, [] => []
  | fuel + 1, c :: cs =>
    if ciPrefixL (ofS "<html") (c :: cs) && !headIsWord ((c :: cs).drop 5) then
      let htmlTxt := (c :: cs).take 5
      let full := (c :: cs).drop 5
      let K := (full.takeWhile (fun d => !(d == '>'))).length
      match backScanAux (tryLangAt q) full K with
      | some (g1tail, rest) =>
        htmlTxt ++ g1tail ++ q :: 't' :: 'h' :: q :: slaAux q fuel rest
      | none => c :: slaAux q fuel cs
    else c :: slaAux q fuel cs

/-- The `switch_lang_attr` function: the double-quote pass, then the
    single-quote pass. -/
def switchLangAttr (html : Chars) : Chars :=
  let h1 := slaAux '"' html.length html
  slaAux (Char.ofNat 39) h1.length h1

/-- The `main` pipeline of translate_html.py without file I/O: protect,
    gather text nodes and attribute values, exit early (`none`) when nothing
    is translatable, translate in batch, replace text nodes then attribute
    values, rewrite the root `lang` attribute, and restore the protected
    blocks. -/
def runPipeline (batchFn : List Chars → Option (List Chars))
    (itemFn : Chars → Option Chars) (html : Chars) : Option Chars :=
  let pr := makePlaceholders html
  let textNodes := findTextNodes pr.1
  let attrOcc := findAttrValues pr.1
  let allTexts := textNodes ++ attrOcc.map (fun o => o.2.2)
  if allTexts.isEmpty then none
  else
    let mapping := batchTranslate batchFn itemFn allTexts
    let t1 := replaceBetweenTags mapping pr.1
    let t2 := replaceAttrValues mapping t1
    let t3 := switchLangAttr t2
    some (restorePlaceholders t3 pr.2)

end HtmlPipe.TH

/- Embedding of src/translate_html_ru.py (auto -> Russian pipeline). -/

namespace HtmlPipe.RU

/-- Token built by `protect_blocks`: `@@{tag.upper()}_{index}@@`. -/
def ruToken (tag : Chars) (n : Nat) : Chars :=
  ofS "@@" ++ tag.map asciiUpper ++ ('_' :: natToChars n) ++ ofS "@@"

/-- Attempt `<{tag}[^>]*>` (case-insensitive) at the head of `s`; returns the
    matched opening-tag text and the rest. -/
def matchTagOpenAt (tag : Chars) (s : Chars) : Option (Chars × Chars) :=
  if ciPrefixL ('<' :: tag) s then
    let r := s.drop (tag.length + 1)
    let inner := r.takeWhile (fun d => !(d == '>'))
    match r.drop inner.length with
    | _ :: r2 => some (s.take (tag.length + 1) ++ inner ++ ['>'], r2)
    | [] => none
  else none

/-- The `pattern.sub(repl, content)` scan of `protect_blocks`: each
    `(<tag[^>]*>)([\s\S]*?)(</tag>)` match is saved whole and replaced by a
    token numbered by the saved list's length.  When an opening tag has no
    later closing tag the scan is over, since any later opening tag would
    search a subset for its closing tag. -/
def protectBlocksAux (tag : Chars) : Nat → Chars → List Chars → Chars × List Chars
  | 0, s, saved => (s, saved)
  | _ + 1, [], saved => ([], saved)
  | fuel + 1, c :: cs, saved =>
    match matchTagOpenAt tag (c :: cs) with
    | some (openTxt, rest) =>
      (match splitOnceCI ('<' :: '/' :: tag ++ ['>']) rest with
       | some (mid, closeTxt, post) =>
         let whole := openTxt ++ mid ++ closeTxt
         let token := ruToken tag saved.length
         let next := protectBlocksAux tag fuel post (saved ++ [whole])
         (token ++ next.1, next.2)
       | none => (c :: cs, saved))
    | none =>
      let next := protectBlocksAux tag fuel cs saved
      (c :: next.1, next.2)

/-- The `protect_blocks` function. -/
def protectBlocks (content : Chars) (tag : Chars) : Chars × List Chars :=
  protectBlocksAux tag content.length content []

/-- The `restore_blocks` function: `str.replace` each indexed token by its
    saved block, in index order. -/
def restoreBlocks (content : Chars) (tag : Chars) (saved : List Chars) : Chars :=
  (saved.enum).foldl (fun h ib => replaceAll (ruToken tag ib.1) ib.2 h) content

/-- One entry of the `_pending` list of `BatchTranslator`:
    `(placeholder, prefix, stripped, suffix, original)`. -/
structure PendItem where
  ph : Chars
  pre : Chars
  stripped : Chars
  suf : Chars
  original : Chars
deriving DecidableEq, Repr

/-- The mutable state of a `BatchTranslator` instance: the `cache` dict and
    the `_pending` list. -/
structure BTState where
  cache : List (Chars × Chars)
  pending : List PendItem
deriving DecidableEq, Repr

/-- The fresh translator state built by `BatchTranslator.__init__`. -/
def btInit : BTState := { cache := [], pending := [] }

/-- The skip substrings of `translate_preserving_ws` (URLs, e-mail marker,
    template braces). -/
def skipSubs : List Chars :=
  [ofS "http://", ofS "https://", ofS "www.", ofS "@", ofS "\x7b", ofS "\x7d"]

/-- The `translate_preserving_ws` method: cache hit; blank, Cyrillic-only and
    skip-substring segments are cached to themselves and returned unchanged;
    otherwise the stripped core joins `_pending` under a fresh `@@T_i@@`
    placeholder, which is returned and cached. -/
def translatePreservingWs (bt : BTState) (s : Chars) : Chars × BTState :=
  match mlookup bt.cache s with
  | some v => (v, bt)
  | none =>
    let stripped := stripL s
    if stripped.isEmpty then (s, { bt with cache := setKV bt.cache s s })
    else if hasCyr stripped && !hasLatin stripped then
      (s, { bt with cache := setKV bt.cache s s })
    else if skipSubs.any (fun x => containsL x stripped) then
      (s, { bt with cache := setKV bt.cache s s })
    else
      let pre := s.takeWhile isSpaceCh
      let suf := (s.reverse.takeWhile isSpaceCh).reverse
      let ph := ofS "@@T_" ++ natToChars bt.pending.length ++ ofS "@@"
      (ph, { cache := setKV bt.cache s ph,
             pending := bt.pending ++ [⟨ph, pre, stripped, suf, s⟩] })

/-- The `_translate_list` method with the backend present: try the batch
    call; on failure translate each item individually, an item failure
    defaulting to the original text. -/
def translateList (batchFn : List Chars → Option (List Chars))
    (itemFn : Chars → Option Chars) (items : List Chars) : List Chars :=
  if items.isEmpty then []
  else
    match batchFn items with
    | some r => r
    | none => items.map (fun it => (itemFn it).getD it)

/-- The `process_batches` method: translate the pending stripped cores in
    80-chunks, then replace each placeholder in the content by the
    translation re-wrapped in the pending entry's whitespace, update the
    cache to the final value, and clear the pending list. -/
def processBatches (batchFn : List Chars → Option (List Chars))
    (itemFn : Chars → Option Chars) (bt : BTState) (content : Chars) :
    Chars × BTState :=
  if bt.pending.isEmpty then (content, bt)
  else
    let batchTexts := bt.pending.map (fun it => it.stripped)
    let translatedAll :=
      ((chunksOf 80 batchTexts).map (translateList batchFn itemFn)).flatten
    let folded := (bt.pending.zip translatedAll).foldl
      (fun acc pt =>
        let result := pt.1.pre ++ pt.2 ++ pt.1.suf
        (replaceAll pt.1.ph result acc.1, setKV acc.2 pt.1.original result))
      (content, bt.cache)
    (folded.1, { cache := folded.2, pending := [] })

/-- The `pattern.sub(repl, content)` scan of `translate_textnodes`: text
    nodes `>([^<>]+)<` whose content has a Latin letter go through
    `translate_preserving_ws` (threading the translator state left to
    right); others are left as matched. -/
def ttnAux : Nat → BTState → Chars → Chars × BTState
  | 0, bt, s => (s, bt)
  | _ + 1, bt, [] => ([], bt)
  | fuel + 1, bt, c :: cs =>
    if c = '>' then
      let run := cs.takeWhile nonAngle
      match cs.drop run.length with
      | '<' :: rest2 =>
        if run.isEmpty then
          let next := ttnAux fuel bt cs
          ('>' :: next.1, next.2)
        else if !hasLatin run then
          let next := ttnAux fuel bt rest2
          ('>' :: run ++ '<' :: next.1, next.2)
        else
          let tr := translatePreservingWs bt run
          let next := ttnAux fuel tr.2 rest2
          ('>' :: tr.1 ++ '<' :: next.1, next.2)
      | _ =>
        let next := ttnAux fuel bt cs
        ('>' :: next.1, next.2)
    else
      let next := ttnAux fuel bt cs
      (c :: next.1, next.2)

/-- The substitution pass of `translate_textnodes`, before `process_batches`. -/
def textSubPass (bt : BTState) (content : Chars) : Chars × BTState :=
  ttnAux content.length bt content

/-- The `translate_textnodes` function: the text-node substitution pass,
    then `process_batches`. -/
def translateTextnodes (batchFn : List Chars → Option (List Chars))
    (itemFn : Chars → Option Chars) (bt : BTState) (content : Chars) :
    Chars × BTState :=
  let r := textSubPass bt content
  processBatches batchFn itemFn r.2 r.1

/-- Match `it` (case-insensitive) then the closing quote `q`; the value part
    of the ru language rewrite, which has no region-subtag alternative. -/
def ruLangValAt (q : Char) (s : Chars) : Option Chars :=
  if ciPrefixL (ofS "it") s then
    match s.drop 2 with
    | c :: r => if c = q then some r else none
    | [] => none
  else none

/-- Match `lang\s*=\s*` then quote `q` then `it` then quote at the head of
    `s`; returns the matched text through the opening quote (the end of
    group 1 in the ru pattern) and the rest after the closing quote. -/
def ruTryLangAt (q : Char) (s : Chars) : Option (Chars × Chars) :=
  if ciPrefixL (ofS "lang") s then
    let lTxt := s.take 4
    let r1 := s.drop 4
    let sp1 := r1.takeWhile isSpaceCh
    match r1.drop sp1.length with
    | '=' :: r2 =>
      let sp2 := r2.takeWhile isSpaceCh
      match r2.drop sp2.length with
      | c :: r3 =>
        if c = q then
          (ruLangValAt q r3).map (fun rest => (lTxt ++ sp1 ++ '=' :: sp2 ++ [q], rest))
        else none
      | [] => none
    | _ => none
  else none

/-- One quote-style `re.sub` pass of the `main` language rewrite:
    `(<html[^>]*\blang\s*=\s*")it(")` replaced by `\1ru\2` (and the
    single-quote twin); note there is no `\b` after `<html` here. -/
def ruSlaAux (q : Char) : Nat → Chars → Chars
  | 0, s => s
  | _ + 1, [] => []
  | fuel + 1, c :: cs =>
    if ciPrefixL (ofS "<html") (c :: cs) then
      let htmlTxt := (c :: cs).take 5
      let full := (c :: cs).drop 5
      let K := (full.takeWhile (fun d => !(d == '>'))).length
      match TH.backScanAux (ruTryLangAt q) full K with
      | some (g1tail, rest) =>
        htmlTxt ++ g1tail ++ 'r' :: 'u' :: q :: ruSlaAux q fuel rest
      | none => c :: ruSlaAux q fuel cs
    else c :: ruSlaAux q fuel cs

/-- The two language-rewrite `re.sub` calls at the top of the ru `main`. -/
def ruSwitchLang (html : Chars) : Chars :=
  let h1 := ruSlaAux '"' html.length html
  ruSlaAux (Char.ofNat 39) h1.length h1

end HtmlPipe.RU

/- Auxiliary predicates used in theorem statements: where an attribute
   pattern can or cannot start matching. -/

namespace HtmlPipe.TH

/-- No position of `s` starts a match of the attribute pattern for `attr`. -/
def attrNoMatchAll (attr : Chars) : Chars → Bool
  | [] => true
  | c :: cs => (matchAttrAt attr (c :: cs)).isNone && attrNoMatchAll attr cs

/-- No position lying strictly inside the prefix `p` of `p ++ rest` starts a
    match of the attribute pattern for `attr` (a match may look ahead into
    `rest`). -/
def attrNoMatchBefore (attr : Chars) : Chars → Chars → Bool
  | [], _ => true
  | c :: cs, rest =>
    (matchAttrAt attr (c :: cs ++ rest)).isNone && attrNoMatchBefore attr cs rest

end HtmlPipe.TH

/- Helper lemmas about the embedded list combinators. -/

namespace HtmlPipe

theorem dedupAux_not_mem {α : Type} [DecidableEq α] {a : α} :
    ∀ (l seen : List α), a ∈ seen → a ∉ dedupAux seen l := by
  intro l
  induction l with
  | nil => intro seen _ h; simp [dedupAux] at h
  | cons x xs ih =>
    intro seen ha
    by_cases hx : x ∈ seen
    · simp only [dedupAux, if_pos hx]
      exact ih seen ha
    · simp only [dedupAux, if_neg hx]
      intro hmem
      rcases List.mem_cons.mp hmem with rfl | h
      · exact hx ha
      · exact ih (x :: seen) (List.mem_cons_of_mem _ ha) h

theorem dedupAux_mem {α : Type} [DecidableEq α] {a : α} :
    ∀ (l seen : List α), a ∈ l → a ∉ seen → a ∈ dedupAux seen l := by
  intro l
  induction l with
  | nil => intro seen h _; exact absurd h (List.not_mem_nil a)
  | cons x xs ih =>
    intro seen ha hs
    by_cases hx : x ∈ seen
    · simp only [dedupAux, if_pos hx]
      rcases List.mem_cons.mp ha with rfl | h
      · exact absurd hx hs
      · exact ih seen h hs
    · simp only [dedupAux, if_neg hx]
      rcases List.mem_cons.mp ha with rfl | h
      · exact List.mem_cons_self a _
      · by_cases hax : a = x
        · subst hax; exact List.mem_cons_self a _
        · refine List.mem_cons_of_mem _ (ih (x :: seen) h ?_)
          simp [List.mem_cons, hax, hs]

theorem dedupAux_nodup {α : Type} [DecidableEq α] :
    ∀ (l seen : List α), (dedupAux seen l).Nodup := by
  intro l
  induction l with
  | nil => intro seen; simp [dedupAux]
  | cons x xs ih =>
    intro seen
    by_cases hx : x ∈ seen
    · simp only [dedupAux, if_pos hx]; exact ih seen
    · simp only [dedupAux, if_neg hx]
      exact List.nodup_cons.mpr
        ⟨dedupAux_not_mem xs (x :: seen) (List.mem_cons_self x seen), ih (x :: seen)⟩

theorem chunksOfAux_flatten {α : Type} (n : Nat) :
    ∀ (fuel : Nat) (l : List α), (chunksOfAux n fuel l).flatten = l := by
  intro fuel
  induction fuel with
  | zero => intro l; cases l <;> simp [chunksOfAux]
  | succ m ih =>
    intro l
    cases l with
    | nil => simp [chunksOfAux]
    | cons x xs => simp [chunksOfAux, ih]

theorem batchInput_eq_dedup (strings : List Chars) :
    TH.batchInput strings = dedup strings := by
  unfold TH.batchInput chunksOf
  exact chunksOfAux_flatten 40 _ _

theorem zip_map_self {α β : Type} (f : α → β) :
    ∀ (l : List α), l.zip (l.map f) = l.map (fun x => (x, f x)) := by
  intro l
  induction l with
  | nil => rfl
  | cons x xs ih => simp [ih]

theorem foldl_inner_flatten {α β : Type} (g : β → α → β) :
    ∀ (L : List (List α)) (init : β),
      L.foldl (fun b chunk => chunk.foldl g b) init = (L.flatten).foldl g init := by
  intro L
  induction L with
  | nil => intro init; rfl
  | cons c cs ih => intro init; simp [List.foldl_append, ih]

theorem mlookup_setKV_self {α β : Type} [DecidableEq α] :
    ∀ (m : List (α × β)) (k : α) (v : β), mlookup (setKV m k v) k = some v := by
  intro m
  induction m with
  | nil => intro k v; simp [setKV, mlookup]
  | cons ab rest ih =>
    intro k v
    obtain ⟨a, b⟩ := ab
    by_cases h : a = k
    · simp [setKV, h, mlookup]
    · simp [setKV, h, mlookup, ih]

theorem mlookup_setKV_ne {α β : Type} [DecidableEq α] :
    ∀ (m : List (α × β)) (k k' : α) (v : β), k' ≠ k →
      mlookup (setKV m k v) k' = mlookup m k' := by
  intro m
  induction m with
  | nil =>
    intro k k' v h
    simp [setKV, mlookup, Ne.symm h]
  | cons ab rest ih =>
    intro k k' v h
    obtain ⟨a, b⟩ := ab
    by_cases hk : a = k
    · subst hk
      simp only [setKV, if_pos rfl]
      simp [mlookup, Ne.symm h]
    · simp only [setKV, if_neg hk]
      by_cases hk' : a = k'
      · simp [mlookup, hk']
      · simp [mlookup, hk', ih k k' v h]

theorem mlookup_foldl_setKV {α β : Type} [DecidableEq α] (f : α → β) :
    ∀ (l : List α) (m : List (α × β)) (s : α),
      (s ∈ l → mlookup (l.foldl (fun acc x => setKV acc x (f x)) m) s = some (f s)) ∧
      (s ∉ l → mlookup (l.foldl (fun acc x => setKV acc x (f x)) m) s = mlookup m s) := by
  intro l
  induction l with
  | nil =>
    intro m s
    exact ⟨fun h => absurd h (List.not_mem_nil s), fun _ => rfl⟩
  | cons x xs ih =>
    intro m s
    simp only [List.foldl_cons]
    constructor
    · intro hs
      by_cases hmem : s ∈ xs
      · exact (ih (setKV m x (f x)) s).1 hmem
      · have hsx : s = x := by
          rcases List.mem_cons.mp hs with h | h
          · exact h
          · exact absurd h hmem
        subst hsx
        rw [(ih (setKV m s (f s)) s).2 hmem]
        exact mlookup_setKV_self m s (f s)
    · intro hs
      have h1 : s ∉ xs := fun h => hs (List.mem_cons_of_mem _ h)
      have h2 : s ≠ x := fun h => hs (h ▸ List.mem_cons_self x xs)
      rw [(ih (setKV m x (f x)) s).2 h1]
      exact mlookup_setKV_ne m x s (f x) h2

end HtmlPipe


namespace HtmlPipe

theorem count_one_of_nodup_mem {α : Type} [BEq α] [LawfulBEq α] {a : α} {l : List α}
    (hn : l.Nodup) (hm : a ∈ l) : l.count a = 1 := by
  induction l with
  | nil => cases hm
  | cons x xs ih =>
    by_cases hax : a = x
    · subst hax
      rw [List.count_cons_self, List.count_eq_zero.mpr (List.nodup_cons.mp hn).1]
    · rw [List.count_cons_of_ne hax]
      exact ih (List.nodup_cons.mp hn).2 ((List.mem_cons.mp hm).resolve_left hax)

end HtmlPipe

/- Claim theorems. -/

open HtmlPipe

/-- C1 (counterexample): de-duplication in `batch_translate` is by exact
    string, not by whitespace-stripped core.  For the document
    `<p> Hello</p><p>Hello </p>` the two extracted text nodes ` Hello` and
    `Hello ` have the same core yet both are handed to the backend, so the
    backend is invoked more than once for the unique core `Hello`. -/
theorem dedup_not_by_core :
    TH.batchInput (TH.findTextNodes (ofS "<p> Hello</p><p>Hello </p>"))
      = [ofS " Hello", ofS "Hello "] ∧
    stripL (ofS " Hello") = stripL (ofS "Hello ") ∧
    ofS " Hello" ≠ ofS "Hello " := by
  refine ⟨by decide, by decide, by decide⟩

/-- C1 (amended): the list `batch_translate` hands to the backend across its
    chunked calls is de-duplicated by exact segment text: it has no
    duplicates, and any text occurring in the input occurs in it exactly
    once. -/
theorem batchInput_nodup_and_once (strings : List Chars) (s : Chars)
    (h : s ∈ strings) :
    (TH.batchInput strings).Nodup ∧ (TH.batchInput strings).count s = 1 := by
  rw [batchInput_eq_dedup]
  have hn : (dedup strings).Nodup := dedupAux_nodup strings []
  have hm : s ∈ dedup strings := dedupAux_mem strings [] h (List.not_mem_nil s)
  exact ⟨hn, count_one_of_nodup_mem hn hm⟩

/-- Witness for the amended C1 theorem at a concrete input. -/
theorem batchInput_nodup_and_once_witness :
    (TH.batchInput [ofS "Hi", ofS "Hi"]).Nodup ∧
    (TH.batchInput [ofS "Hi", ofS "Hi"]).count (ofS "Hi") = 1 :=
  batchInput_nodup_and_once [ofS "Hi", ofS "Hi"] (ofS "Hi") (by decide)

/-- C7: when the backend's batch call fails for every chunk, every input
    string still ends up in `batch_translate`'s mapping, translated by the
    per-item fallback call, or kept as the original text when that call
    fails too; no segment is dropped and the function runs to completion. -/
theorem batch_failure_item_fallback (strings : List Chars)
    (itemFn : Chars → Option Chars) (s : Chars) (h : s ∈ strings) :
    mlookup (TH.batchTranslate (fun _ => none) itemFn strings) s
      = some ((itemFn s).getD s) := by
  have main : ∀ (L : List (List Chars)) (m : List (Chars × Chars)),
      L.foldl (fun mp chunk =>
        (chunk.zip (chunk.map (fun x => (itemFn x).getD x))).foldl
          (fun m p => setKV m p.1 p.2) mp) m
      = (L.flatten).foldl (fun acc x => setKV acc x ((itemFn x).getD x)) m := by
    intro L
    induction L with
    | nil => intro m; rfl
    | cons c cs ih =>
      intro m
      simp only [List.foldl_cons, List.flatten_cons, List.foldl_append]
      rw [← ih]
      congr 1
      rw [zip_map_self, List.foldl_map]
  have hbt : TH.batchTranslate (fun _ => none) itemFn strings
      = (dedup strings).foldl (fun acc x => setKV acc x ((itemFn x).getD x)) [] := by
    simp only [TH.batchTranslate]
    rw [main (chunksOf 40 (dedup strings)) []]
    unfold chunksOf
    rw [chunksOfAux_flatten]
  rw [hbt]
  exact (mlookup_foldl_setKV (fun x => (itemFn x).getD x) (dedup strings) [] s).1
    (dedupAux_mem strings [] h (List.not_mem_nil s))

/-- Witness for the C7 theorem at a concrete input with a failing item call. -/
theorem batch_failure_item_fallback_witness :
    mlookup (TH.batchTranslate (fun _ => none) (fun _ => none) [ofS "Ciao"]) (ofS "Ciao")
      = some (ofS "Ciao") :=
  batch_failure_item_fallback [ofS "Ciao"] (fun _ => none) (ofS "Ciao") (by decide)

/-- C10: in the ru implementation, a segment not yet in the cache whose
    stripped content contains one of the skip substrings (`http://`,
    `https://`, `www.`, `@`, left or right brace) is returned unchanged by
    `translate_preserving_ws` and is never queued for the backend (the
    pending batch list is untouched). -/
theorem skip_substring_never_translated (bt : RU.BTState) (s : Chars)
    (hcache : mlookup bt.cache s = none)
    (hskip : RU.skipSubs.any (fun x => containsL x (stripL s)) = true) :
    (RU.translatePreservingWs bt s).1 = s ∧
    (RU.translatePreservingWs bt s).2.pending = bt.pending := by
  unfold RU.translatePreservingWs
  rw [hcache]
  by_cases h1 : (stripL s).isEmpty
  · simp [h1]
  · by_cases h2 : hasCyr (stripL s) && !hasLatin (stripL s)
    · simp [h1, h2]
    · simp [h1, h2, hskip]

/-- Witness for the C10 theorem at a concrete input containing `@`. -/
theorem skip_substring_never_translated_witness :
    (RU.translatePreservingWs RU.btInit (ofS " mail me@x.it ")).1 = ofS " mail me@x.it " ∧
    (RU.translatePreservingWs RU.btInit (ofS " mail me@x.it ")).2.pending
      = RU.btInit.pending :=
  skip_substring_never_translated RU.btInit (ofS " mail me@x.it ")
    (by decide) (by decide)

/-- C2: with a translation backend that is the identity function on strings,
    the translate_html.py pipeline is not byte-identical to the input: the
    mapping is keyed by the raw segment (whitespace included) and the repl
    re-attaches the whitespace runs around the mapped value, so the margins
    of `<p> Hello </p>` come out doubled. -/
theorem pipeline_identity_not_roundtrip :
    TH.runPipeline (fun l => some l) (fun s => some s) (ofS "<p> Hello </p>")
      = some (ofS "<p>  Hello  </p>") ∧
    ofS "<p>  Hello  </p>" ≠ ofS "<p> Hello </p>" :=
  ⟨by decide, by decide⟩

/-- C3: the content of a `<script>` element holding a comment is not
    byte-identical after a run, even with an identity backend: the comment is
    protected first, its token is swallowed into the stored script block, and
    restoration in insertion order never reaches it, so the script body comes
    back holding a raw placeholder token and the comment text is gone. -/
theorem pipeline_mutates_script_content :
    TH.runPipeline (fun l => some l) (fun s => some s)
        (ofS "<p>Hi</p><script><!--x--></script>")
      = some (ofS "<p>Hi</p><script>__PLACEHOLDER_COMMENT_0__</script>") ∧
    containsL (ofS "<!--x-->")
        (ofS "<p>Hi</p><script>__PLACEHOLDER_COMMENT_0__</script>") = false :=
  ⟨by decide, by decide⟩

/-- C4: `restore(protect(doc))` with no translation step is not the identity:
    for `<script><!--x--></script>` the comment token is stored inside the
    saved script block, restoration runs in insertion order, and the comment
    token survives into the result. -/
theorem restore_protect_leaves_token :
    TH.roundTripProtect (ofS "<script><!--x--></script>")
      = ofS "<script>__PLACEHOLDER_COMMENT_0__</script>" ∧
    TH.roundTripProtect (ofS "<script><!--x--></script>")
      ≠ ofS "<script><!--x--></script>" :=
  ⟨by decide, by decide⟩

/-- C5: a protection token embedded in a larger text node is handed to the
    backend as translatable text: for `<p>foo <script>x</script></p>` the
    text node `foo __PLACEHOLDER_SCRIPT_0__` passes all the skip rules of
    `find_text_nodes` and is the batch input of the run. -/
theorem placeholder_token_sent_to_backend :
    TH.findTextNodes (TH.makePlaceholders (ofS "<p>foo <script>x</script></p>")).1
      = [ofS "foo __PLACEHOLDER_SCRIPT_0__"] ∧
    TH.batchInput
        (TH.findTextNodes (TH.makePlaceholders (ofS "<p>foo <script>x</script></p>")).1
          ++ (TH.findAttrValues
                (TH.makePlaceholders (ofS "<p>foo <script>x</script></p>")).1).map
              (fun o => o.2.2))
      = [ofS "foo __PLACEHOLDER_SCRIPT_0__"] ∧
    containsL (ofS "__PLACEHOLDER_SCRIPT_0__") (ofS "foo __PLACEHOLDER_SCRIPT_0__")
      = true :=
  ⟨by decide, by decide, by decide⟩

/-- C6 (counterexample): translate_html.py does not batch whitespace-stripped
    cores: for the text node `  Hello World  ` the backend is handed the raw
    segment with its margins, not the core. -/
theorem batch_items_not_cores :
    TH.batchInput (TH.findTextNodes (ofS ">  Hello World  <"))
      = [ofS "  Hello World  "] ∧
    stripL (ofS "  Hello World  ") = ofS "Hello World" ∧
    ofS "  Hello World  " ≠ ofS "Hello World" :=
  ⟨by decide, by decide, by decide⟩

/-- C6 (amended): the ru implementation separates the margins from the core
    and batches only the cores: for the text node `  Hello World  ` the
    pending batch holds exactly the core `Hello World`, and with a backend
    translating it to `Bonjour le monde` the output text node is
    `  Bonjour le monde  ` with both margins preserved. -/
theorem ru_core_batching_preserves_margins :
    (RU.textSubPass RU.btInit (ofS ">  Hello World  <")).2.pending.map
        (fun it => it.stripped) = [ofS "Hello World"] ∧
    (RU.translateTextnodes
        (fun items => some (items.map
          (fun s => if s = ofS "Hello World" then ofS "Bonjour le monde" else s)))
        (fun s => some s) RU.btInit (ofS ">  Hello World  <")).1
      = ofS ">  Bonjour le monde  <" :=
  ⟨by decide, by decide⟩

/-- C8 (counterexample): the language rewriter does not rewrite an arbitrary
    previous value: `<html lang="fr">` is left unchanged by
    `switch_lang_attr`, not rewritten to the target `th`. -/
theorem lang_fr_not_rewritten :
    TH.switchLangAttr (ofS "<html lang=\"fr\">") = ofS "<html lang=\"fr\">" ∧
    ofS "<html lang=\"fr\">" ≠ ofS "<html lang=\"th\">" :=
  ⟨by decide, by decide⟩

/-- C8 (amended): the rewriters only rewrite a root `lang` value equal to the
    source language: translate_html.py rewrites `it` with any region subtag
    (either quote style) to `th`; the ru script rewrites exactly `it` to `ru`
    and leaves `it-IT` alone; `lang=` occurrences not preceded by `<html`
    within the tag are untouched. -/
theorem lang_rewrite_source_only :
    TH.switchLangAttr (ofS "<html lang=\"it-IT\">") = ofS "<html lang=\"th\">" ∧
    TH.switchLangAttr (ofS "<html lang=" ++ Char.ofNat 39 :: ofS "it"
        ++ Char.ofNat 39 :: ofS ">")
      = ofS "<html lang=" ++ Char.ofNat 39 :: ofS "th" ++ Char.ofNat 39 :: ofS ">" ∧
    TH.switchLangAttr (ofS "<body lang=\"it\">") = ofS "<body lang=\"it\">" ∧
    RU.ruSwitchLang (ofS "<html lang=\"it\">") = ofS "<html lang=\"ru\">" ∧
    RU.ruSwitchLang (ofS "<html lang=\"it-IT\">") = ofS "<html lang=\"it-IT\">" :=
  ⟨by decide, by decide, by decide, by decide, by decide⟩

namespace HtmlPipe.TH

theorem attrScan_nil (attr : Chars) :
    ∀ (fuel : Nat) (s : Chars), attrNoMatchAll attr s = true →
      attrScanAux attr fuel s = [] := by
  intro fuel
  induction fuel with
  | zero => intro s _; rfl
  | succ m ih =>
    intro s hs
    cases s with
    | nil => rfl
    | cons c cs =>
      simp only [attrNoMatchAll, Bool.and_eq_true, Option.isNone_iff_eq_none] at hs
      simp only [attrScanAux, hs.1]
      exact ih cs hs.2

theorem attrScan_skip (attr : Chars) :
    ∀ (p rest : Chars), attrNoMatchBefore attr p rest = true →
      attrScanAux attr (p ++ rest).length (p ++ rest)
        = attrScanAux attr rest.length rest := by
  intro p
  induction p with
  | nil => intro rest _; simp
  | cons c cs ih =>
    intro rest hp
    simp only [attrNoMatchBefore, List.cons_append, Bool.and_eq_true,
      Option.isNone_iff_eq_none] at hp
    simp only [List.cons_append, List.length_cons]
    simp only [attrScanAux, hp.1]
    exact ih rest hp.2

theorem rav_nil (mapping : List (Chars × Chars)) (attr : Chars) :
    ∀ (fuel : Nat) (s : Chars), attrNoMatchAll attr s = true →
      ravAux mapping attr fuel s = s := by
  intro fuel
  induction fuel with
  | zero => intro s _; rfl
  | succ m ih =>
    intro s hs
    cases s with
    | nil => rfl
    | cons c cs =>
      simp only [attrNoMatchAll, Bool.and_eq_true, Option.isNone_iff_eq_none] at hs
      simp only [ravAux, hs.1]
      rw [ih cs hs.2]

theorem rav_skip (mapping : List (Chars × Chars)) (attr : Chars) :
    ∀ (p rest : Chars), attrNoMatchBefore attr p rest = true →
      ravAux mapping attr (p ++ rest).length (p ++ rest)
        = p ++ ravAux mapping attr rest.length rest := by
  intro p
  induction p with
  | nil => intro rest _; simp
  | cons c cs ih =>
    intro rest hp
    simp only [attrNoMatchBefore, List.cons_append, Bool.and_eq_true,
      Option.isNone_iff_eq_none] at hp
    simp only [List.cons_append, List.length_cons]
    simp only [ravAux, hp.1]
    rw [ih rest hp.2]

end HtmlPipe.TH

/-- C9: attribute names are matched with no word boundary, so an attribute
    whose name merely ends in a configured name is extracted and replaced as
    if it were that attribute.  For any document prefix `p` (for example
    `<img data-`) in which no configured attribute pattern matches except at
    the final `title=...` position, the value of the suffix-named attribute
    is extracted under `title` and rewritten by `replace_attr_values`. -/
theorem suffix_attr_extracted_and_replaced (p : Chars)
    (h1 : TH.attrNoMatchAll (ofS "alt") (p ++ ofS "title=\"Hello\">") = true)
    (h2 : TH.attrNoMatchBefore (ofS "title") p (ofS "title=\"Hello\">") = true)
    (h3 : TH.attrNoMatchAll (ofS "placeholder") (p ++ ofS "title=\"Hello\">") = true)
    (h4 : TH.attrNoMatchAll (ofS "aria-label") (p ++ ofS "title=\"Hello\">") = true)
    (h5 : TH.attrNoMatchAll (ofS "placeholder") (p ++ ofS "title=\"Bonjour\">") = true)
    (h6 : TH.attrNoMatchAll (ofS "aria-label") (p ++ ofS "title=\"Bonjour\">") = true) :
    TH.findAttrValues (p ++ ofS "title=\"Hello\">")
      = [(ofS "title", '"', ofS "Hello")] ∧
    TH.replaceAttrValues [(ofS "Hello", ofS "Bonjour")] (p ++ ofS "title=\"Hello\">")
      = p ++ ofS "title=\"Bonjour\">" := by
  constructor
  · have e_alt := TH.attrScan_nil (ofS "alt") (p ++ ofS "title=\"Hello\">").length _ h1
    have e_ph := TH.attrScan_nil (ofS "placeholder") (p ++ ofS "title=\"Hello\">").length _ h3
    have e_aria := TH.attrScan_nil (ofS "aria-label") (p ++ ofS "title=\"Hello\">").length _ h4
    have e_title : TH.attrScanAux (ofS "title") (p ++ ofS "title=\"Hello\">").length
        (p ++ ofS "title=\"Hello\">") = [('"', ofS "Hello")] := by
      rw [TH.attrScan_skip (ofS "title") p (ofS "title=\"Hello\">") h2]
      decide
    unfold TH.findAttrValues TH.VISIBLE_ATTRS
    simp only [List.map_cons, List.map_nil, e_alt, e_ph, e_aria, e_title]
    decide
  · have step_alt := TH.rav_nil [(ofS "Hello", ofS "Bonjour")] (ofS "alt")
      (p ++ ofS "title=\"Hello\">").length _ h1
    have step_title : TH.ravAux [(ofS "Hello", ofS "Bonjour")] (ofS "title")
        (p ++ ofS "title=\"Hello\">").length (p ++ ofS "title=\"Hello\">")
        = p ++ ofS "title=\"Bonjour\">" := by
      rw [TH.rav_skip [(ofS "Hello", ofS "Bonjour")] (ofS "title") p
        (ofS "title=\"Hello\">") h2]
      congr 1
    have step_ph := TH.rav_nil [(ofS "Hello", ofS "Bonjour")] (ofS "placeholder")
      (p ++ ofS "title=\"Bonjour\">").length _ h5
    have step_aria := TH.rav_nil [(ofS "Hello", ofS "Bonjour")] (ofS "aria-label")
      (p ++ ofS "title=\"Bonjour\">").length _ h6
    unfold TH.replaceAttrValues TH.VISIBLE_ATTRS
    simp only [List.foldl_cons, List.foldl_nil]
    rw [step_alt, step_title, step_ph, step_aria]

/-- Witness for the C9 theorem at the concrete prefix `<img data-`. -/
theorem suffix_attr_extracted_and_replaced_witness :
    TH.findAttrValues (ofS "<img data-" ++ ofS "title=\"Hello\">")
      = [(ofS "title", '"', ofS "Hello")] ∧
    TH.replaceAttrValues [(ofS "Hello", ofS "Bonjour")]
        (ofS "<img data-" ++ ofS "title=\"Hello\">")
      = ofS "<img data-" ++ ofS "title=\"Bonjour\">" :=
  suffix_attr_extracted_and_replaced (ofS "<img data-")
    (by decide) (by decide) (by decide) (by decide) (by decide) (by decide)
